import Mathlib

/-!
Verification of the offset-position translator of the ai-writer editing
surface (src/utils/cursor.ts), the paragraph navigation of the editor
component (src/components/ui/Editor.tsx, handleKeyDown), and the word and
character statistics (src/components/WritingStudio.tsx,
handleContentChange).

The DOM fragment owned by the ContentEditable element is modelled as a
rooted tree whose leaves carry text (JS strings are modelled as lists of
characters, with length counting units the way the source counts them).
A TreeWalker over the element with NodeFilter.SHOW_TEXT visits exactly the
text-node descendants of the element in document order, which is the
pre-order sequence of text leaves of the tree.
-/

namespace AiWriter

/-- A DOM node under the editor element: a text node carrying character
data, or an element node with an ordered list of children. -/
inductive DomNode where
  | text (data : List Char)
  | elem (children : List DomNode)

/-- The ContentEditable host element: an element node, kept as the list of
its children (the element itself is never a text node). -/
structure Element where
  children : List DomNode

mutual

/-- Document-order (pre-order) sequence of the character data of the text
node descendants of a node: exactly the nodes a TreeWalker with
NodeFilter.SHOW_TEXT rooted above it yields. -/
def DomNode.textNodes : DomNode → List (List Char)
  | .text s => [s]
  | .elem cs => textNodesList cs

/-- Document-order text nodes of a sibling list. -/
def textNodesList : List DomNode → List (List Char)
  | [] => []
  | n :: rest => n.textNodes ++ textNodesList rest

end

mutual

/-- node.textContent: concatenation of all descendant character data in
document order. -/
def DomNode.textContent : DomNode → List Char
  | .text s => s
  | .elem cs => textContentList cs

/-- Concatenated textContent of a sibling list. -/
def textContentList : List DomNode → List Char
  | [] => []
  | n :: rest => n.textContent ++ textContentList rest

end

/-- The text nodes the TreeWalker created on the element visits, in
document order (cursor.ts line 57 and line 129). -/
def Element.textLeaves (e : Element) : List (List Char) :=
  textNodesList e.children

/-- element.textContent for the host element. -/
def Element.textContent (e : Element) : List Char :=
  textContentList e.children

/-- Total character length of the element's text, i.e. the sum of the
lengths of its text leaves in document order. -/
def Element.totalLen (e : Element) : Nat :=
  e.textContent.length

/-- A caret position produced by the translator: either character offset
`off` inside the text leaf with document-order index `idx`, or child
offset `childOff` on the host element itself (the degenerate fallback of
cursor.ts lines 77-81). -/
inductive CaretPos where
  | onLeaf (idx : Nat) (off : Nat)
  | onElement (childOff : Nat)
deriving DecidableEq

/-- The text-node walk of setCursorPosition (cursor.ts lines 59-75):
starting from accumulated length `currentOffset`, find the first text node
whose cumulative length (inclusive) is at least `offset`; the result is
the document-order index of that node relative to the start of `leaves`
together with the local offset `offset - currentOffset` at the break. -/
def findTextNodeFrom : List (List Char) → Nat → Nat → Option (Nat × Nat)
  | [], _, _ => none
  | node :: rest, offset, currentOffset =>
    if currentOffset + node.length ≥ offset then
      some (0, offset - currentOffset)
    else
      match findTextNodeFrom rest offset (currentOffset + node.length) with
      | some (j, k) => some (j + 1, k)
      | none => none

/-- The text-node walk of setCursorAtOffset (cursor.ts lines 131-145),
transcribed separately from its own loop: same traversal, accumulating
`currentPos` and breaking at the first node with
`currentPos + nodeLength >= targetOffset`. -/
def scaoFindFrom : List (List Char) → Nat → Nat → Option (Nat × Nat)
  | [], _, _ => none
  | node :: rest, targetOffset, currentPos =>
    if currentPos + node.length ≥ targetOffset then
      some (0, targetOffset - currentPos)
    else
      match scaoFindFrom rest targetOffset (currentPos + node.length) with
      | some (j, k) => some (j + 1, k)
      | none => none

/-- Length of the text of the leaf with document-order index `j`
(targetNode.textContent.length for that node; 0 when out of range,
matching the `?? 0` fallback). -/
def leafLenAt (e : Element) (j : Nat) : Nat :=
  ((e.textLeaves.get? j).getD []).length

/-- The target computed by setCursorPosition (cursor.ts lines 54-81 plus
the Math.min clamp of line 90): the walk's text node and clamped local
offset, or the element itself at child offset 0 when no text node was
found. -/
def setCursorPositionTarget (e : Element) (offset : Nat) : CaretPos :=
  match findTextNodeFrom e.textLeaves offset 0 with
  | some (j, k) => .onLeaf j (min k (leafLenAt e j))
  | none => .onElement (min 0 e.textContent.length)

/-- Failure raised by the native range.setStart primitive. -/
inductive DomError where
  | setStartFailed
deriving DecidableEq

/-- Result of running a piece of JS code: either a propagated exception or
a normal return value. -/
inductive JsResult (α : Type) where
  | thrown (err : DomError)
  | value (a : α)
deriving DecidableEq

/-- Whether a JsResult is a normal return. -/
def JsResult.isValue : JsResult α → Bool
  | .thrown _ => false
  | .value _ => true

/-- The native range.setStart call, with an oracle `fails` saying whether
the primitive raises (e.g. the node is no longer attached to the
document). On success the collapsed range denotes the given caret
position. -/
def domSetStart (fails : Bool) (p : CaretPos) : JsResult CaretPos :=
  if fails then .thrown .setStartFailed else .value p

/-- Observable outcome of a caret-placing call: the selection after the
call (a collapsed caret, or whatever was there before) and whether a
warning was logged by a catch block. -/
structure RunResult where
  selection : Option CaretPos
  warned : Bool
deriving DecidableEq

/-- Full behaviour of setCursorPosition (cursor.ts lines 50-99): compute
the target, then inside a try block call range.setStart, collapse, and
replace the selection; a raised error is caught and logged
(console.warn), leaving the selection unchanged. The outer JsResult
records whether any exception escapes the function. -/
def setCursorPosition (e : Element) (offset : Nat) (setStartFails : Bool)
    (sel : Option CaretPos) : JsResult RunResult :=
  match domSetStart setStartFails (setCursorPositionTarget e offset) with
  | .value p => .value ⟨some p, false⟩
  | .thrown _ => .value ⟨sel, true⟩

/-- Full behaviour of setCursorAtOffset (cursor.ts lines 125-163): run the
walk; only when a target node was found, call range.setStart inside a try
block (with the Math.min clamp of line 154), collapse and replace the
selection, catching and logging any raised error; when no node was found
the function returns without touching the selection. -/
def setCursorAtOffset (e : Element) (targetOffset : Nat)
    (setStartFails : Bool) (sel : Option CaretPos) : JsResult RunResult :=
  match scaoFindFrom e.textLeaves targetOffset 0 with
  | some (j, k) =>
    match domSetStart setStartFails (.onLeaf j (min k (leafLenAt e j))) with
    | .value p => .value ⟨some p, false⟩
    | .thrown _ => .value ⟨sel, true⟩
  | none => .value ⟨sel, false⟩

/-- The global offset computed by getCursorPosition's preRange (cursor.ts
lines 35-39): the length of the document text strictly between the start
of the element and the anchor. For an anchor inside text leaf `j` at
character offset `k` this is the total length of the leaves before `j`
plus `k`; for an anchor on the element at child offset `c` it is the
length of the text of the first `c` children. -/
def offsetFromAnchor (e : Element) : CaretPos → Nat
  | .onLeaf j k => (((e.textLeaves.take j).map List.length).sum) + k
  | .onElement c => (textContentList (e.children.take c)).length

/-- The state getCursorPosition reads: window.getSelection() may be null,
and otherwise holds a list of ranges, each contributing its start anchor
(getRangeAt(0) reads the head). -/
structure SelectionState where
  ranges : List CaretPos

/-- getCursorPosition (cursor.ts lines 25-45): null when there is no
selection or it has no ranges; otherwise the global offset of the first
range's start anchor (paired with that anchor node). -/
def getCursorPosition (e : Element) (sel : Option SelectionState) :
    Option (Nat × CaretPos) :=
  match sel with
  | none => none
  | some s =>
    match s.ranges with
    | [] => none
    | r :: _ => some (offsetFromAnchor e r, r)

/-! ## Paragraph navigation (Editor.tsx, handleKeyDown)

The Ctrl+ArrowDown and Ctrl+ArrowUp branches compute a target offset from
the flattened content string and the current caret offset. JS string
indexing `content[i]` yields undefined out of range (including negative
indices), so it is modelled with an Int index returning an Option. The
loops are transcribed with an explicit iteration budget equal to the
number of iterations the source loop can still perform from the current
index, so every definition is structural and computes by evaluation. -/

/-- JS string indexing content[i]: the character at index i, or none when
i is negative or at least the length (undefined in JS). -/
def jsCharAt (content : List Char) (i : Int) : Option Char :=
  if 0 ≤ i then content.get? i.toNat else none

/-- The first loop of the ArrowDown branch (Editor.tsx lines 178-187):
scan i upward from the current offset; break at the first i with
content[i] a line break and (i the last index or content[i+1] a line
break); default to content.length. `fuel` is the remaining iteration
count, content.length - i at every reachable call. -/
def scanBreakForwardAux (content : List Char) : Nat → Nat → Nat
  | 0, _ => content.length
  | fuel + 1, i =>
    if i < content.length then
      if jsCharAt content i = some '\n' ∧
          (i = content.length - 1 ∨ jsCharAt content (i + 1) = some '\n') then
        i
      else scanBreakForwardAux content fuel (i + 1)
    else content.length

/-- paragraphEnd as computed by the ArrowDown branch from currentOffset. -/
def paragraphEndScan (content : List Char) (currentOffset : Nat) : Nat :=
  scanBreakForwardAux content (content.length - currentOffset) currentOffset

/-- The second loop of the ArrowDown branch (Editor.tsx lines 193-202):
scan i upward from paragraphEnd + 1; break with i when content[i-1] and
content[i-2] are both line breaks, or when content[i] is not a line
break; none when the loop exhausts without breaking. -/
def scanNextParagraphAux (content : List Char) : Nat → Nat → Option Nat
  | 0, _ => none
  | fuel + 1, i =>
    if i < content.length then
      if jsCharAt content ((i : Int) - 1) = some '\n' ∧
          jsCharAt content ((i : Int) - 2) = some '\n' then
        some i
      else if ¬ (jsCharAt content (i : Int) = some '\n') then
        some i
      else scanNextParagraphAux content fuel (i + 1)
    else none

/-- Target offset of the Ctrl+ArrowDown branch (Editor.tsx lines
169-211): jump to paragraphEnd; when already there, advance into the next
paragraph via the second scan (staying put when it finds nothing), and
wrap to 0 when already at the very end. -/
def arrowDownTarget (content : List Char) (currentOffset : Nat) : Nat :=
  let paragraphEnd := paragraphEndScan content currentOffset
  if currentOffset = paragraphEnd then
    if paragraphEnd < content.length then
      match scanNextParagraphAux content
          (content.length - (paragraphEnd + 1)) (paragraphEnd + 1) with
      | some t => t
      | none => paragraphEnd
    else 0
  else paragraphEnd

/-- The first loop of the ArrowUp branch (Editor.tsx lines 131-139): scan
i downward from currentOffset - 1; break with paragraphStart = i + 1 at
the first line break whose predecessor is a line break or which sits at
index 0; none when the loop exhausts (paragraphStart then stays 0).
`fuel` is the remaining iteration count, i + 1 at every reachable call. -/
def scanBreakBackwardAux (content : List Char) : Nat → Int → Option Nat
  | 0, _ => none
  | fuel + 1, i =>
    if 0 ≤ i then
      if jsCharAt content i = some '\n' ∧
          (i = 0 ∨ jsCharAt content (i - 1) = some '\n') then
        some (i + 1).toNat
      else scanBreakBackwardAux content fuel (i - 1)
    else none

/-- The second loop of the ArrowUp branch (Editor.tsx lines 149-158):
scan i downward from paragraphStart - 2; break with i + 1 at the first
non-line-break character, or with 0 when index 0 is reached; none when
the loop never runs (paragraphStart - 2 negative). -/
def scanPrevParagraphAux (content : List Char) : Nat → Int → Option Nat
  | 0, _ => none
  | fuel + 1, i =>
    if 0 ≤ i then
      if ¬ (jsCharAt content i = some '\n') then some (i + 1).toNat
      else if i = 0 then some 0
      else scanPrevParagraphAux content fuel (i - 1)
    else none

/-- Target offset of the Ctrl+ArrowUp branch (Editor.tsx lines 119-167):
jump to the start of the current paragraph; when within one character of
it, jump to the start of the previous paragraph, wrapping to
content.length when already in the first paragraph. -/
def arrowUpTarget (content : List Char) (currentOffset : Nat) : Nat :=
  let paragraphStart : Nat :=
    (scanBreakBackwardAux content currentOffset ((currentOffset : Int) - 1)).getD 0
  if ((currentOffset : Int) - (paragraphStart : Int)).natAbs ≤ 1 then
    if 0 < paragraphStart then
      match scanPrevParagraphAux content (paragraphStart - 1)
          ((paragraphStart : Int) - 2) with
      | some t => t
      | none => paragraphStart
    else content.length
  else paragraphStart

/-! ## Word and character statistics (WritingStudio.tsx,
handleContentChange) -/

/-- The characters matched by the JS regex class backslash-s and removed
by String.prototype.trim (WhiteSpace and LineTerminator code points). -/
def jsIsWhitespace (c : Char) : Bool :=
  c.toNat == 0x20 || c.toNat == 0x09 || c.toNat == 0x0a || c.toNat == 0x0b ||
    c.toNat == 0x0c || c.toNat == 0x0d || c.toNat == 0xa0 ||
    c.toNat == 0x1680 || (0x2000 ≤ c.toNat && c.toNat ≤ 0x200a) ||
    c.toNat == 0x2028 || c.toNat == 0x2029 || c.toNat == 0x202f ||
    c.toNat == 0x205f || c.toNat == 0x3000 || c.toNat == 0xfeff

/-- String.prototype.trim: drop leading and trailing whitespace. -/
def jsTrim (s : List Char) : List Char :=
  ((s.dropWhile jsIsWhitespace).reverse.dropWhile jsIsWhitespace).reverse

/-- String.prototype.split on the regex of one-or-more whitespace
characters: fields are the (possibly empty) substrings between maximal
nonempty whitespace runs; an exhausted input after a separator still
contributes a final empty field, and an input with no separator is the
single field. `fuel` strictly exceeds the length of `s` at every
reachable call, and each recursive step removes at least one character. -/
def splitWSAux : Nat → List Char → List (List Char)
  | 0, s => [s]
  | fuel + 1, s =>
    let field := s.takeWhile (fun c => !(jsIsWhitespace c))
    let rest := s.dropWhile (fun c => !(jsIsWhitespace c))
    if rest.isEmpty then [field]
    else field :: splitWSAux fuel (rest.dropWhile jsIsWhitespace)

/-- s.split on one-or-more whitespace. -/
def splitWS (s : List Char) : List (List Char) :=
  splitWSAux (s.length + 1) s

/-- The word statistic of handleContentChange (WritingStudio.tsx lines
28-29): 0 when the trimmed content is empty, else the number of fields of
the trimmed content split on whitespace runs. -/
def wordCount (s : List Char) : Nat :=
  if jsTrim s = [] then 0 else (splitWS (jsTrim s)).length

/-- The character statistic of handleContentChange (WritingStudio.tsx
line 31): the untrimmed length. -/
def charCount (s : List Char) : Nat :=
  s.length

/-- dropWhile never lengthens a list (used for termination below). -/
theorem dropWhile_length_le (p : α → Bool) (l : List α) :
    (l.dropWhile p).length ≤ l.length := by
  induction l with
  | nil => simp
  | cons a l ih =>
    rw [List.dropWhile_cons]
    by_cases h : p a = true
    · rw [if_pos h]
      exact le_trans ih (Nat.le_succ _)
    · rw [if_neg h]

mutual

/-- Number of maximal runs of non-whitespace characters, written from the
spec's description of word segmentation for comparison with wordCount.
The two mutual functions are the states of the obvious scanner: outside a
run, a non-whitespace character opens a new run; inside a run, the run
ends at the next whitespace character. -/
def countRuns : List Char → Nat
  | [] => 0
  | c :: rest => if jsIsWhitespace c then countRuns rest else 1 + inRun rest

/-- Scanner state inside a run of non-whitespace characters. -/
def inRun : List Char → Nat
  | [] => 0
  | c :: rest => if jsIsWhitespace c then countRuns rest else inRun rest

end

/-- Two text leaves abc and de. -/
def abcde : Element := ⟨[.text "abc".data, .text "de".data]⟩

def hello : List Char := "Hello\n\nWorld".data

example : setCursorPositionTarget abcde 3 = .onLeaf 0 3 := by decide
example : setCursorPositionTarget abcde 5 = .onLeaf 1 2 := by decide
example : setCursorPositionTarget abcde 9 = .onElement 0 := by decide
example : setCursorPositionTarget abcde 0 = .onLeaf 0 0 := by decide
example : setCursorPositionTarget abcde 4 = .onLeaf 1 1 := by decide
example : abcde.totalLen = 5 := by decide
example : offsetFromAnchor abcde (.onLeaf 1 1) = 4 := by decide
example : arrowDownTarget hello 0 = 5 := by decide
example : arrowDownTarget hello 5 = 7 := by decide
example : arrowDownTarget hello 7 = 12 := by decide
example : arrowDownTarget hello 12 = 0 := by decide
example : arrowUpTarget hello 12 = 7 := by decide
example : arrowUpTarget hello 0 = 12 := by decide
example : wordCount "Hello world test".data = 3 := by decide
example : charCount "Hello world test".data = 16 := by decide
example : wordCount "".data = 0 := by decide
example : wordCount "   ".data = 0 := by decide

/-! ## Basic structure lemmas -/

mutual

theorem DomNode.textContent_eq_join :
    ∀ n : DomNode, n.textContent = n.textNodes.flatten
  | .text s => by
    simp [DomNode.textContent, DomNode.textNodes]
  | .elem cs => by
    simpa [DomNode.textContent, DomNode.textNodes] using
      textContentList_eq_join cs

theorem textContentList_eq_join :
    ∀ cs : List DomNode, textContentList cs = (textNodesList cs).flatten
  | [] => by simp [textContentList, textNodesList]
  | n :: rest => by
    simp [textContentList, textNodesList, DomNode.textContent_eq_join n,
      textContentList_eq_join rest]

end

/-- The element's total text length is the sum of its leaf lengths in
document order. -/
theorem totalLen_eq_sum (e : Element) :
    e.totalLen = ((e.textLeaves.map List.length).sum) := by
  simp [Element.totalLen, Element.textContent, Element.textLeaves,
    textContentList_eq_join]

/-- The two inner walks of setCursorPosition and setCursorAtOffset are the
same function. -/
theorem scaoFindFrom_eq_findTextNodeFrom :
    ∀ (leaves : List (List Char)) (offset cur : Nat),
      scaoFindFrom leaves offset cur = findTextNodeFrom leaves offset cur := by
  intro leaves
  induction leaves with
  | nil => intro offset cur; rfl
  | cons node rest ih =>
    intro offset cur
    simp only [scaoFindFrom, findTextNodeFrom, ih]

/-- When the requested offset exceeds the total length beyond the current
accumulator, the walk finds no node. -/
theorem findTextNodeFrom_none (leaves : List (List Char)) :
    ∀ offset cur : Nat, cur + ((leaves.map List.length).sum) < offset →
      findTextNodeFrom leaves offset cur = none := by
  induction leaves with
  | nil => intro offset cur _; rfl
  | cons node rest ih =>
    intro offset cur h
    simp only [List.map_cons, List.sum_cons] at h
    have hnot : ¬ cur + node.length ≥ offset := by omega
    simp only [findTextNodeFrom, if_neg hnot,
      ih offset (cur + node.length) (by omega)]

/-- Specification of the walk: for an in-range offset on a nonempty leaf
list the walk returns the first leaf whose cumulative length reaches the
offset, with the exact residual local offset. -/
theorem findTextNodeFrom_spec (leaves : List (List Char)) :
    ∀ offset cur : Nat, cur ≤ offset →
      offset ≤ cur + ((leaves.map List.length).sum) → leaves ≠ [] →
      ∃ j k, findTextNodeFrom leaves offset cur = some (j, k) ∧
        j < leaves.length ∧
        k ≤ ((leaves.get? j).getD []).length ∧
        cur + (((leaves.take j).map List.length).sum) + k = offset ∧
        offset ≤ cur + (((leaves.take (j + 1)).map List.length).sum) ∧
        ∀ i, i < j → cur + (((leaves.take (i + 1)).map List.length).sum) < offset := by
  induction leaves with
  | nil => intro offset cur _ _ hne; exact absurd rfl hne
  | cons node rest ih =>
    intro offset cur hcur hle _
    by_cases hbreak : cur + node.length ≥ offset
    · refine ⟨0, offset - cur, ?_, ?_, ?_, ?_, ?_, ?_⟩
      · simp [findTextNodeFrom, if_pos hbreak]
      · simp
      · simp only [List.get?_cons_zero, Option.getD_some]
        omega
      · simp only [List.take_zero, List.map_nil, List.sum_nil]
        omega
      · simp only [List.take_succ_cons, List.take_zero, List.map_cons,
          List.map_nil, List.sum_cons, List.sum_nil]
        omega
      · intro i hi
        omega
    · push_neg at hbreak
      have hrest_ne : rest ≠ [] := by
        intro hr
        subst hr
        simp only [List.map_cons, List.map_nil, List.sum_cons,
          List.sum_nil] at hle
        omega
      simp only [List.map_cons, List.sum_cons] at hle
      obtain ⟨j, k, heq, hlt, hk, hsum, hub, hmin⟩ :=
        ih offset (cur + node.length) (by omega) (by omega) hrest_ne
      have hnot : ¬ cur + node.length ≥ offset := by omega
      refine ⟨j + 1, k, ?_, ?_, ?_, ?_, ?_, ?_⟩
      · simp only [findTextNodeFrom, if_neg hnot, heq]
      · simpa using hlt
      · simpa only [List.get?_cons_succ] using hk
      · simp only [List.take_succ_cons, List.map_cons, List.sum_cons]
        omega
      · simp only [List.take_succ_cons, List.map_cons, List.sum_cons]
        omega
      · intro i hi
        match i with
        | 0 =>
          simp only [List.take_succ_cons, List.take_zero, List.map_cons,
            List.map_nil, List.sum_cons, List.sum_nil]
          omega
        | i + 1 =>
          have hmi := hmin i (by omega)
          simp only [List.take_succ_cons, List.map_cons, List.sum_cons]
          omega

/-- The sum of a take is at most the sum of the whole list. -/
theorem sumTake_le_sum (l : List Nat) (m : Nat) : (l.take m).sum ≤ l.sum := by
  conv_rhs => rw [← List.take_append_drop m l]
  rw [List.sum_append]
  omega

/-- Sums of takes are monotone in the length taken. -/
theorem sumTake_mono (l : List Nat) {a b : Nat} (h : a ≤ b) :
    (l.take a).sum ≤ (l.take b).sum := by
  conv_rhs => rw [← List.take_append_drop a (l.take b)]
  rw [List.take_take, min_eq_left h, List.sum_append]
  omega

/-- textContent distributes over sibling list concatenation. -/
theorem textContentList_append (xs ys : List DomNode) :
    textContentList (xs ++ ys) = textContentList xs ++ textContentList ys := by
  induction xs with
  | nil => simp [textContentList]
  | cons n rest ih => simp [textContentList, ih]

/-- Valid anchors for getCursorPosition: a character offset within an
existing text leaf, or a child offset on the element itself. -/
def validAnchor (e : Element) : CaretPos → Bool
  | .onLeaf j k => decide (j < e.textLeaves.length) && decide (k ≤ leafLenAt e j)
  | .onElement c => decide (c ≤ e.children.length)

/-- A valid anchor's global offset never exceeds the total length. -/
theorem offsetFromAnchor_le_totalLen (e : Element) (a : CaretPos)
    (h : validAnchor e a = true) : offsetFromAnchor e a ≤ e.totalLen := by
  rcases a with ⟨j, k⟩ | c
  · simp only [validAnchor, Bool.and_eq_true, decide_eq_true_eq] at h
    obtain ⟨hj, hk⟩ := h
    rw [offsetFromAnchor, totalLen_eq_sum]
    have h1 : ((e.textLeaves.take j).map List.length).sum =
        ((e.textLeaves.map List.length).take j).sum := by
      rw [List.map_take]
    obtain ⟨v, hv⟩ : ∃ v, e.textLeaves[j]? = some v :=
      ⟨_, List.getElem?_eq_getElem hj⟩
    have hlen : leafLenAt e j = v.length := by
      rw [leafLenAt, List.get?_eq_getElem?, hv]
      rfl
    have h2 : ((e.textLeaves.map List.length).take (j + 1)).sum =
        ((e.textLeaves.map List.length).take j).sum + leafLenAt e j := by
      rw [List.take_succ, List.sum_append, List.getElem?_map, hv, hlen]
      simp
    have h3 := sumTake_le_sum (e.textLeaves.map List.length) (j + 1)
    omega
  · simp only [validAnchor, decide_eq_true_eq] at h
    rw [offsetFromAnchor, Element.totalLen, Element.textContent]
    conv_rhs => rw [← List.take_append_drop c e.children]
    rw [textContentList_append, List.length_append]
    omega

/-- Concrete element with two text leaves abc and de, the tree of the
spec's concrete scenario B. -/
theorem abcde_leaves : abcde.textLeaves = ["abc".data, "de".data] := by decide

/-! ## Claim theorems: cursor translation -/

/-- C1. Round-trip law: for every document tree and every offset o within
the total text length, reading the offset back (getCursorPosition's
preRange length) from the node-walk target of setCursorPosition yields
exactly o. -/
theorem roundtrip_offset_position (e : Element) (o : Nat)
    (h : o ≤ e.totalLen) :
    offsetFromAnchor e (setCursorPositionTarget e o) = o := by
  by_cases hne : e.textLeaves = []
  · have hz : e.totalLen = 0 := by
      rw [totalLen_eq_sum, hne]
      rfl
    have ho : o = 0 := by omega
    subst ho
    have hwalk : findTextNodeFrom e.textLeaves 0 0 = none := by
      rw [hne]
      rfl
    simp [setCursorPositionTarget, hwalk, offsetFromAnchor, textContentList]
  · have hsum : o ≤ 0 + ((e.textLeaves.map List.length).sum) := by
      rw [totalLen_eq_sum] at h
      omega
    obtain ⟨j, k, heq, hjlt, hk, hsumeq, _, _⟩ :=
      findTextNodeFrom_spec e.textLeaves o 0 (Nat.zero_le _) hsum hne
    have hmin : min k (leafLenAt e j) = k := min_eq_left (by rw [leafLenAt]; exact hk)
    simp only [setCursorPositionTarget, heq, hmin, offsetFromAnchor]
    omega

/-- C1 witness: the round trip at offset 4 of the two-leaf tree abc, de. -/
theorem roundtrip_offset_position_witness :
    4 ≤ abcde.totalLen ∧
    offsetFromAnchor abcde (setCursorPositionTarget abcde 4) = 4 :=
  ⟨by decide, roundtrip_offset_position abcde 4 (by decide)⟩

/-- C2. Boundary tie-break: when the target offset equals the cumulative
end c > 0 of some leaf, the walk resolves to a leaf of positive length at
local offset equal to that full leaf length (the earlier leaf), never to
local offset 0 on a following leaf; concretely, on leaves abc and de,
offset 3 resolves to leaf 0 at local offset 3 and offset 5 to leaf 1 at
local offset 2. -/
theorem boundary_tiebreak_earlier_leaf :
    (∀ (e : Element) (i : Nat), i < e.textLeaves.length →
      0 < (((e.textLeaves.map List.length).take (i + 1)).sum) →
      ∃ j s, e.textLeaves.get? j = some s ∧ 0 < s.length ∧
        setCursorPositionTarget e
            (((e.textLeaves.map List.length).take (i + 1)).sum) =
          .onLeaf j s.length ∧
        (((e.textLeaves.map List.length).take j).sum) + s.length =
          (((e.textLeaves.map List.length).take (i + 1)).sum)) ∧
    setCursorPositionTarget abcde 3 = .onLeaf 0 3 ∧
    setCursorPositionTarget abcde 5 = .onLeaf 1 2 := by
  refine ⟨?_, by decide, by decide⟩
  intro e i hi hpos
  set L := e.textLeaves.map List.length with hL
  have hlenL : L.length = e.textLeaves.length := by simp [hL]
  have hc_le : ((L.take (i + 1)).sum) ≤ L.sum := sumTake_le_sum L (i + 1)
  have hne : e.textLeaves ≠ [] := by
    intro hnil
    rw [hnil] at hi
    simp at hi
  obtain ⟨j, k, heq, hjlt, hk, hsumeq, hub, hminlt⟩ :=
    findTextNodeFrom_spec e.textLeaves ((L.take (i + 1)).sum) 0
      (Nat.zero_le _) (by rw [← hL]; omega) hne
  obtain ⟨v, hv⟩ : ∃ v, e.textLeaves[j]? = some v :=
    ⟨_, List.getElem?_eq_getElem hjlt⟩
  have hLj : L[j]? = some v.length := by
    rw [hL, List.getElem?_map, hv]
    rfl
  have htk : ∀ m, ((e.textLeaves.take m).map List.length).sum = (L.take m).sum := by
    intro m
    rw [hL, List.map_take]
  rw [htk] at hsumeq
  rw [htk] at hub
  simp only [htk] at hminlt
  have hsucc : (L.take (j + 1)).sum = (L.take j).sum + v.length := by
    rw [List.take_succ, List.sum_append, hLj]
    simp
  have hji : j ≤ i := by
    by_contra hgt
    push_neg at hgt
    have := hminlt i (by omega)
    omega
  have hmono : (L.take (j + 1)).sum ≤ (L.take (i + 1)).sum :=
    sumTake_mono L (by omega)
  have hends : (L.take (j + 1)).sum = (L.take (i + 1)).sum := by omega
  have hjlow : (L.take j).sum < (L.take (i + 1)).sum := by
    rcases j with _ | j0
    · simpa using hpos
    · have := hminlt j0 (by omega)
      omega
  have hkval : k = v.length := by omega
  have hpos_v : 0 < v.length := by omega
  refine ⟨j, v, ?_, hpos_v, ?_, by omega⟩
  · rw [List.get?_eq_getElem?, hv]
  · have hlenat : leafLenAt e j = v.length := by
      rw [leafLenAt, List.get?_eq_getElem?, hv]
      rfl
    simp only [setCursorPositionTarget, heq, hlenat, hkval, min_self]

/-- C2 witness: the tie-break at the end of the first leaf of the abc, de
tree. -/
theorem boundary_tiebreak_earlier_leaf_witness :
    (0 < abcde.textLeaves.length ∧
      0 < (((abcde.textLeaves.map List.length).take 1).sum)) ∧
    (∃ j s, abcde.textLeaves.get? j = some s ∧ 0 < s.length ∧
      setCursorPositionTarget abcde
          (((abcde.textLeaves.map List.length).take 1).sum) =
        .onLeaf j s.length ∧
      (((abcde.textLeaves.map List.length).take j).sum) + s.length =
        (((abcde.textLeaves.map List.length).take 1).sum)) :=
  ⟨⟨by decide, by decide⟩,
    boundary_tiebreak_earlier_leaf.1 abcde 0 (by decide) (by decide)⟩

/-- C3 counterexample: on the abc, de tree (total length 5), offset 9
resolves to the degenerate container position, not to the second leaf at
local offset 2 where offset 5 resolves — the code does not clamp
out-of-range offsets to the last leaf's end. -/
theorem clamping_counterexample :
    abcde.totalLen = 5 ∧
    setCursorPositionTarget abcde 9 = .onElement 0 ∧
    setCursorPositionTarget abcde 5 = .onLeaf 1 2 ∧
    setCursorPositionTarget abcde 9 ≠ setCursorPositionTarget abcde 5 := by
  decide

/-- C3 amended: an out-of-range offset is not an error, but it is not
clamped to the last leaf's end either: the walk finds no text node, so
setCursorPosition resolves totalLen + k to the degenerate container
position (element, child offset 0), and setCursorAtOffset leaves the
selection untouched. -/
theorem out_of_range_degenerate (e : Element) (k : Nat) (hk : 0 < k) :
    setCursorPositionTarget e (e.totalLen + k) = .onElement 0 ∧
    ∀ fails sel, setCursorAtOffset e (e.totalLen + k) fails sel =
      .value ⟨sel, false⟩ := by
  have hwalk : findTextNodeFrom e.textLeaves (e.totalLen + k) 0 = none := by
    apply findTextNodeFrom_none
    rw [totalLen_eq_sum] at *
    omega
  constructor
  · simp [setCursorPositionTarget, hwalk]
  · intro fails sel
    simp [setCursorAtOffset, scaoFindFrom_eq_findTextNodeFrom, hwalk]

/-- C3 amended witness: offset 9 = 5 + 4 on the abc, de tree. -/
theorem out_of_range_degenerate_witness :
    0 < 4 ∧
    (setCursorPositionTarget abcde (abcde.totalLen + 4) = .onElement 0 ∧
      ∀ fails sel, setCursorAtOffset abcde (abcde.totalLen + 4) fails sel =
        .value ⟨sel, false⟩) :=
  ⟨by decide, out_of_range_degenerate abcde 4 (by decide)⟩

/-- A tree with structural nodes but no text leaves. -/
def noLeafEl : Element := ⟨[.elem [], .elem [.elem []]]⟩

/-- The empty element, with no child nodes at all. -/
def emptyEl : Element := ⟨[]⟩

/-- C8. Empty-tree degenerate position: on a tree without text leaves the
walk finds nothing and setCursorPosition resolves offset 0 to the
container itself at child offset 0; the function signals no failure for
any tree and any offset — it always produces a caret position (the code
has no NotFound outcome at all). -/
theorem empty_tree_degenerate (e : Element) :
    (e.textLeaves = [] → setCursorPositionTarget e 0 = .onElement 0) ∧
    ∀ offset sel, ∃ p : CaretPos,
      setCursorPosition e offset false sel = .value ⟨some p, false⟩ := by
  constructor
  · intro h
    have hwalk : findTextNodeFrom e.textLeaves 0 0 = none := by
      rw [h]
      rfl
    simp [setCursorPositionTarget, hwalk]
  · intro offset sel
    exact ⟨setCursorPositionTarget e offset, rfl⟩

/-- C8 witness: a tree of two empty structural elements. -/
theorem empty_tree_degenerate_witness :
    noLeafEl.textLeaves = [] ∧
    setCursorPositionTarget noLeafEl 0 = .onElement 0 :=
  ⟨by decide, (empty_tree_degenerate noLeafEl).1 (by decide)⟩

/-- C9. applyPosition never throws: for every tree, offset, prior
selection and failure behaviour of the native range.setStart primitive,
both setCursorPosition and setCursorAtOffset return normally; when the
primitive raises inside setCursorPosition, the error is caught, a warning
is logged, and the prior selection is left untouched. -/
theorem apply_position_never_throws :
    ∀ (e : Element) (offset : Nat) (fails : Bool) (sel : Option CaretPos),
      (setCursorPosition e offset fails sel).isValue = true ∧
      (setCursorAtOffset e offset fails sel).isValue = true ∧
      setCursorPosition e offset true sel = .value ⟨sel, true⟩ ∧
      (setCursorAtOffset e offset true sel = .value ⟨sel, true⟩ ∨
        setCursorAtOffset e offset true sel = .value ⟨sel, false⟩) := by
  intro e offset fails sel
  refine ⟨?_, ?_, rfl, ?_⟩
  · cases fails <;> rfl
  · rcases h : scaoFindFrom e.textLeaves offset 0 with _ | ⟨j, k⟩
    · simp [setCursorAtOffset, h, JsResult.isValue]
    · cases fails <;>
        simp [setCursorAtOffset, h, domSetStart, JsResult.isValue]
  · rcases h : scaoFindFrom e.textLeaves offset 0 with _ | ⟨j, k⟩
    · right
      simp [setCursorAtOffset, h]
    · left
      simp [setCursorAtOffset, h, domSetStart]

/-- C10 counterexample: on the empty tree, offset 0 is within [0, total
length], yet setCursorPosition collapses the selection to the container at
child offset 0 while setCursorAtOffset leaves the selection untouched —
the two functions already disagree in range when no text leaf exists. -/
theorem equivalence_counterexample :
    emptyEl.totalLen = 0 ∧
    setCursorPosition emptyEl 0 false none =
      .value ⟨some (.onElement 0), false⟩ ∧
    setCursorAtOffset emptyEl 0 false none = .value ⟨none, false⟩ ∧
    setCursorPosition emptyEl 0 false none ≠
      setCursorAtOffset emptyEl 0 false none := by
  decide

/-- C10 amended: the two inner walks are the same function, and the two
functions behave identically on every tree with at least one text leaf at
every offset within the total length; whenever the walk finds no text
node — an offset beyond the total length, or a tree without text leaves
even at offset 0 — setCursorAtOffset is a silent no-op while
setCursorPosition collapses the selection to the container at child
offset 0. -/
theorem cursor_functions_equivalence :
    (∀ (leaves : List (List Char)) (offset cur : Nat),
      scaoFindFrom leaves offset cur = findTextNodeFrom leaves offset cur) ∧
    (∀ (e : Element) (o : Nat), e.textLeaves ≠ [] → o ≤ e.totalLen →
      ∀ fails sel, setCursorPosition e o fails sel =
        setCursorAtOffset e o fails sel) ∧
    (∀ (e : Element) (o : Nat), e.totalLen < o →
      ∀ sel, setCursorAtOffset e o false sel = .value ⟨sel, false⟩ ∧
        setCursorPosition e o false sel =
          .value ⟨some (.onElement 0), false⟩) := by
  refine ⟨scaoFindFrom_eq_findTextNodeFrom, ?_, ?_⟩
  · intro e o hne ho fails sel
    have hsum : o ≤ 0 + ((e.textLeaves.map List.length).sum) := by
      rw [totalLen_eq_sum] at ho
      omega
    obtain ⟨j, k, heq, _, _, _, _, _⟩ :=
      findTextNodeFrom_spec e.textLeaves o 0 (Nat.zero_le _) hsum hne
    simp [setCursorPosition, setCursorAtOffset, setCursorPositionTarget,
      scaoFindFrom_eq_findTextNodeFrom, heq]
  · intro e o ho sel
    have hwalk : findTextNodeFrom e.textLeaves o 0 = none := by
      apply findTextNodeFrom_none
      rw [totalLen_eq_sum] at ho
      omega
    constructor
    · simp [setCursorAtOffset, scaoFindFrom_eq_findTextNodeFrom, hwalk]
    · simp [setCursorPosition, setCursorPositionTarget, hwalk, domSetStart]

/-- C10 amended witness: agreement at offset 3 on the abc, de tree, and
divergence at offset 9. -/
theorem cursor_functions_equivalence_witness :
    (abcde.textLeaves ≠ [] ∧ 3 ≤ abcde.totalLen ∧ abcde.totalLen < 9) ∧
    setCursorPosition abcde 3 false none = setCursorAtOffset abcde 3 false none ∧
    setCursorAtOffset abcde 9 false none = .value ⟨none, false⟩ :=
  ⟨⟨by decide, by decide, by decide⟩,
    cursor_functions_equivalence.2.1 abcde 3 (by decide) (by decide) false none,
    (cursor_functions_equivalence.2.2 abcde 9 (by decide) none).1⟩

/-- C7. NoSelection signalling: getCursorPosition returns null exactly
when there is no selection object or it holds no range; with a live
anchor it returns the anchor's global offset (never substituting zero for
the absent-anchor case), and for an anchor reachable from the tree that
offset lies within [0, total length]. -/
theorem no_selection_signalling :
    (∀ (e : Element) (sel : Option SelectionState),
      getCursorPosition e sel = none ↔
        sel = none ∨ ∃ s, sel = some s ∧ s.ranges = []) ∧
    (∀ (e : Element) (a : CaretPos) (rest : List CaretPos),
      getCursorPosition e (some ⟨a :: rest⟩) =
        some (offsetFromAnchor e a, a)) ∧
    (∀ (e : Element) (a : CaretPos),
      validAnchor e a = true → offsetFromAnchor e a ≤ e.totalLen) := by
  refine ⟨?_, ?_, ?_⟩
  · intro e sel
    rcases sel with _ | ⟨ranges⟩
    · simp [getCursorPosition]
    · rcases ranges with _ | ⟨r, rs⟩
      · simp [getCursorPosition]
      · simp [getCursorPosition]
  · intro e a rest
    rfl
  · intro e a h
    exact offsetFromAnchor_le_totalLen e a h

/-- C7 witness: a live anchor inside the second leaf of the abc, de
tree. -/
theorem no_selection_signalling_witness :
    validAnchor abcde (.onLeaf 1 1) = true ∧
    getCursorPosition abcde (some ⟨[.onLeaf 1 1]⟩) =
      some (offsetFromAnchor abcde (.onLeaf 1 1), .onLeaf 1 1) ∧
    offsetFromAnchor abcde (.onLeaf 1 1) ≤ abcde.totalLen :=
  ⟨by decide,
    no_selection_signalling.2.1 abcde (.onLeaf 1 1) [],
    no_selection_signalling.2.2 abcde (.onLeaf 1 1) (by decide)⟩

/-! ## Claim theorems: paragraph navigation -/

/-- The forward break scan never jumps before its starting index (the
loop either breaks at some i at or beyond the start, or runs to the
content length). -/
theorem scanBreakForwardAux_ge (content : List Char) :
    ∀ (fuel i : Nat), i ≤ content.length →
      i ≤ scanBreakForwardAux content fuel i := by
  intro fuel
  induction fuel with
  | zero => intro i h; simpa [scanBreakForwardAux] using h
  | succ fuel ih =>
    intro i h
    rw [scanBreakForwardAux]
    by_cases hlt : i < content.length
    · rw [if_pos hlt]
      split
      · exact le_refl i
      · exact le_trans (Nat.le_succ i) (ih (i + 1) (by omega))
    · rw [if_neg hlt]
      omega

/-- The second forward scan only returns indices at or beyond its
starting index. -/
theorem scanNextParagraphAux_ge (content : List Char) :
    ∀ (fuel i t : Nat), scanNextParagraphAux content fuel i = some t →
      i ≤ t := by
  intro fuel
  induction fuel with
  | zero => intro i t h; simp [scanNextParagraphAux] at h
  | succ fuel ih =>
    intro i t h
    rw [scanNextParagraphAux] at h
    by_cases hlt : i < content.length
    · rw [if_pos hlt] at h
      split at h
      · cases h
        omega
      · split at h
        · cases h
          omega
        · exact le_trans (Nat.le_succ i) (ih (i + 1) t h)
    · rw [if_neg hlt] at h
      cases h
  
/-- C4 counterexample: on the text of concrete scenario A the code's
Ctrl+ArrowDown computation from offset 0 yields 5 (the first line break),
not 7, and the Ctrl+ArrowUp computation from offset 12 yields 7 (the
start of the current paragraph), not 0. -/
theorem paragraph_scenario_counterexample :
    ¬ (arrowDownTarget hello 0 = 7 ∧ arrowDownTarget hello 7 = 12 ∧
        arrowUpTarget hello 12 = 0) := by
  decide

/-- C4 amended: the actual targets on "Hello\n\nWorld": forward from 0
stops at 5 (the index of the first separator line break, the current
paragraph's end), forward from 7 reaches 12 (the text length), and
backward from 12 stops at 7 (the start of the current paragraph). -/
theorem paragraph_scenario_actual :
    hello.length = 12 ∧
    arrowDownTarget hello 0 = 5 ∧
    arrowDownTarget hello 7 = 12 ∧
    arrowUpTarget hello 12 = 7 := by
  decide

/-- C5 counterexample: on the two-paragraph text of scenario A the claim
fails: the first forward application from 0 lands on 5 — the current
paragraph's end, not the next paragraph's start 7 — and after N = 2
applications the walk has only reached 7, not the text length 12. -/
theorem paragraph_monotonicity_counterexample :
    arrowDownTarget hello 0 = 5 ∧
    arrowDownTarget hello (arrowDownTarget hello 0) = 7 ∧
    arrowDownTarget hello 0 ≠ 7 ∧
    arrowDownTarget hello 0 ≠ hello.length ∧
    arrowDownTarget hello (arrowDownTarget hello 0) ≠ hello.length := by
  decide

/-- C5 amended: the forward computation never moves backward from any
offset below the text length (weak monotonicity; it can stall at a
trailing line-break run and it wraps to 0 only from the very end), and on
"Hello\n\nWorld" repeated application from 0 walks the strictly
increasing chain 0, 5, 7, 12, reaching the text length within
2N - 1 = 3 applications for its N = 2 paragraphs, visiting the second
paragraph's start 7 exactly once. -/
theorem paragraph_forward_monotone :
    (∀ (content : List Char) (o : Nat), o < content.length →
      o ≤ arrowDownTarget content o) ∧
    (arrowDownTarget hello 0 = 5 ∧ arrowDownTarget hello 5 = 7 ∧
      arrowDownTarget hello 7 = 12 ∧ hello.length = 12) := by
  constructor
  · intro content o ho
    rw [arrowDownTarget]
    have hpe : o ≤ paragraphEndScan content o :=
      scanBreakForwardAux_ge content (content.length - o) o (by omega)
    by_cases heq : o = paragraphEndScan content o
    · rw [if_pos heq]
      rw [if_pos (by omega)]
      rcases hscan : scanNextParagraphAux content
          (content.length - (paragraphEndScan content o + 1))
          (paragraphEndScan content o + 1) with _ | t
      · simpa using hpe
      · simp only [hscan]
        have := scanNextParagraphAux_ge content _ _ _ hscan
        omega
    · rw [if_neg heq]
      exact hpe
  · exact ⟨by decide, by decide, by decide, by decide⟩

/-- C5 amended witness: the forward step from offset 0 of scenario A. -/
theorem paragraph_forward_monotone_witness :
    (0 < hello.length ∧ 0 ≤ arrowDownTarget hello 0) ∧
    arrowDownTarget hello 5 = 7 :=
  ⟨⟨by decide, paragraph_forward_monotone.1 hello 0 (by decide)⟩,
    paragraph_forward_monotone.2.2.1⟩

/-! ## Claim theorems: word and character statistics -/

/-- Unfolding equation of countRuns on the empty list. -/
theorem countRuns_nil : countRuns [] = 0 :=
  rfl

/-- Unfolding equation of countRuns on a whitespace head. -/
theorem countRuns_cons_ws {c : Char} {cs : List Char}
    (h : jsIsWhitespace c = true) : countRuns (c :: cs) = countRuns cs := by
  simp [countRuns, h]

/-- The in-run scanner state counts the runs of what remains once the
current run is skipped. -/
theorem inRun_eq_countRuns_dropWhile :
    ∀ x : List Char,
      inRun x = countRuns (x.dropWhile (fun d => !(jsIsWhitespace d))) := by
  intro x
  induction x with
  | nil => rfl
  | cons c x ih =>
    by_cases h : jsIsWhitespace c = true
    · have hpred : (fun d => !(jsIsWhitespace d)) c = false := by simp [h]
      rw [List.dropWhile_cons, if_neg (by simp [hpred])]
      simp [inRun, countRuns, h]
    · have hf : jsIsWhitespace c = false := by simpa using h
      have hpred : (fun d => !(jsIsWhitespace d)) c = true := by simp [hf]
      rw [List.dropWhile_cons, if_pos hpred]
      simpa [inRun, hf] using ih

/-- Unfolding equation of countRuns on a non-whitespace head: one run,
plus whatever follows the run. -/
theorem countRuns_cons_nonws {c : Char} {cs : List Char}
    (h : jsIsWhitespace c = false) :
    countRuns (c :: cs) =
      1 + countRuns (cs.dropWhile (fun d => !(jsIsWhitespace d))) := by
  simp [countRuns, h, inRun_eq_countRuns_dropWhile]

/-- The head surviving a dropWhile fails the dropped predicate. -/
theorem head_dropWhile_not {α : Type} (p : α → Bool) :
    ∀ (l : List α) (c : α), (l.dropWhile p).head? = some c → p c = false := by
  intro l
  induction l with
  | nil => intro c h; cases h
  | cons a l ih =>
    intro c h
    rw [List.dropWhile_cons] at h
    by_cases hp : p a = true
    · rw [if_pos hp] at h
      exact ih c h
    · rw [if_neg hp] at h
      cases h
      simpa using hp

/-- An element named by getLast? is a member. -/
theorem mem_of_getLast?_eq {α : Type} {l : List α} {a : α}
    (h : l.getLast? = some a) : a ∈ l := by
  obtain ⟨hne, ha⟩ := List.mem_getLast?_eq_getLast (show a ∈ l.getLast? from h)
  rw [ha]
  exact List.getLast_mem hne

/-- A nonempty suffix has the same last element as the whole list. -/
theorem getLast?_of_suffix {α : Type} {l2 l : List α} (h : l2 <:+ l)
    (hne : l2 ≠ []) : l2.getLast? = l.getLast? := by
  obtain ⟨pre, rfl⟩ := h
  exact (List.getLast?_append_of_ne_nil pre hne).symm

/-- Dropping leading whitespace does not change the number of
non-whitespace runs. -/
theorem countRuns_dropWhile_ws :
    ∀ x : List Char, countRuns (x.dropWhile jsIsWhitespace) = countRuns x := by
  intro x
  induction x with
  | nil => rfl
  | cons a x ih =>
    rw [List.dropWhile_cons]
    by_cases hp : jsIsWhitespace a = true
    · rw [if_pos hp, countRuns_cons_ws hp]
      exact ih
    · rw [if_neg hp]

/-- Key lemma: on a nonempty string with no leading and no trailing
whitespace, the number of split fields equals the number of
non-whitespace runs. The fuel strictly exceeds the string length, as it
does at every reachable call of splitWSAux. -/
theorem splitWSAux_length_eq_countRuns :
    ∀ (fuel : Nat) (u : List Char), u.length < fuel →
      (∀ c, u.head? = some c → jsIsWhitespace c = false) →
      (∀ c, u.getLast? = some c → jsIsWhitespace c = false) →
      u ≠ [] →
      (splitWSAux fuel u).length = countRuns u := by
  intro fuel
  induction fuel with
  | zero => intro u h _ _ _; omega
  | succ fuel ih =>
    intro u hlen hhead hlast hne
    rcases u with _ | ⟨c, u'⟩
    · exact absurd rfl hne
    have hc : jsIsWhitespace c = false := hhead c rfl
    have hcpred : (fun d => !(jsIsWhitespace d)) c = true := by simp [hc]
    have hdrop : (c :: u').dropWhile (fun d => !(jsIsWhitespace d)) =
        u'.dropWhile (fun d => !(jsIsWhitespace d)) := by
      rw [List.dropWhile_cons, if_pos hcpred]
    rw [splitWSAux]
    simp only [hdrop]
    rw [countRuns_cons_nonws hc]
    set rest := u'.dropWhile (fun d => !(jsIsWhitespace d)) with hrestdef
    by_cases hempty : rest.isEmpty = true
    · rw [if_pos hempty]
      have : rest = [] := List.isEmpty_iff.mp hempty
      rw [this, countRuns_nil]
      rfl
    · rw [if_neg hempty]
      have hrest_ne : rest ≠ [] := by
        intro h
        rw [h] at hempty
        exact hempty rfl
      rcases hrx : rest with _ | ⟨b, rest2⟩
      · exact absurd hrx hrest_ne
      have hb_ws : jsIsWhitespace b = true := by
        have := head_dropWhile_not (fun d => !(jsIsWhitespace d)) u' b
          (by rw [← hrestdef, hrx]; rfl)
        simpa using this
      have hr2 : rest.dropWhile jsIsWhitespace =
          rest2.dropWhile jsIsWhitespace := by
        rw [hrx, List.dropWhile_cons, if_pos hb_ws]
      have hsuffix_rest : rest <:+ c :: u' := by
        rw [hrestdef]
        exact (List.dropWhile_suffix _).trans (List.suffix_cons c u')
      have hlast_rest : ∀ d, rest.getLast? = some d →
          jsIsWhitespace d = false := by
        intro d hd
        apply hlast
        rw [← getLast?_of_suffix hsuffix_rest hrest_ne]
        exact hd
      have hr2_ne : rest.dropWhile jsIsWhitespace ≠ [] := by
        intro h
        have hall : ∀ x ∈ rest, jsIsWhitespace x = true :=
          List.dropWhile_eq_nil_iff.mp h
        obtain ⟨dl, hdl⟩ : ∃ dl, rest.getLast? = some dl := by
          rw [hrx]
          exact ⟨(b :: rest2).getLast (by simp),
            List.getLast?_eq_getLast _ (by simp)⟩
        have h1 := hlast_rest dl hdl
        have h2 := hall dl (mem_of_getLast?_eq hdl)
        rw [h2] at h1
        exact Bool.noConfusion h1
      have hr2_suffix : rest.dropWhile jsIsWhitespace <:+ rest :=
        List.dropWhile_suffix _
      have hr2_len : (rest.dropWhile jsIsWhitespace).length < fuel := by
        have h1 : (rest.dropWhile jsIsWhitespace).length ≤ rest2.length := by
          rw [hr2]
          exact dropWhile_length_le _ _
        have h2 : rest.length ≤ u'.length := by
          rw [hrestdef]
          exact dropWhile_length_le _ _
        rw [hrx] at h2
        simp only [List.length_cons] at h2 hlen
        omega
      have hih := ih (rest.dropWhile jsIsWhitespace) hr2_len
        (fun d hd => head_dropWhile_not jsIsWhitespace rest d hd)
        (fun d hd => hlast_rest d (by
          rw [← getLast?_of_suffix hr2_suffix hr2_ne]
          exact hd))
        hr2_ne
      rw [← hrx]
      simp only [List.length_cons, hih]
      rw [countRuns_dropWhile_ws rest]
      omega

/-- jsTrim is the right-trim of the left-trimmed string. -/
theorem jsTrim_eq_rdropWhile (s : List Char) :
    jsTrim s = List.rdropWhile jsIsWhitespace (s.dropWhile jsIsWhitespace) :=
  rfl

/-- The trimmed string never starts with whitespace. -/
theorem jsTrim_head_not_ws (s : List Char) :
    ∀ c, (jsTrim s).head? = some c → jsIsWhitespace c = false := by
  intro c hc
  rw [jsTrim_eq_rdropWhile] at hc
  obtain ⟨r, hr⟩ :=
    List.rdropWhile_prefix jsIsWhitespace (s.dropWhile jsIsWhitespace)
  rcases hx : List.rdropWhile jsIsWhitespace (s.dropWhile jsIsWhitespace)
    with _ | ⟨a, t⟩
  · rw [hx] at hc
    cases hc
  · rw [hx] at hc hr
    have hhead : (s.dropWhile jsIsWhitespace).head? = some a := by
      rw [← hr]
      rfl
    have ha := head_dropWhile_not jsIsWhitespace s a hhead
    cases hc
    exact ha

/-- The trimmed string never ends with whitespace. -/
theorem jsTrim_last_not_ws (s : List Char) :
    ∀ c, (jsTrim s).getLast? = some c → jsIsWhitespace c = false := by
  intro c hc
  have hne : jsTrim s ≠ [] := by
    intro h
    rw [h] at hc
    cases hc
  rw [jsTrim_eq_rdropWhile] at hc hne
  have hlast :=
    List.rdropWhile_last_not jsIsWhitespace (s.dropWhile jsIsWhitespace) hne
  have heq := List.getLast?_eq_getLast _ hne
  rw [heq] at hc
  cases hc
  simpa using hlast

/-- An all-whitespace string trims to nothing. -/
theorem jsTrim_eq_nil_of_all_ws (s : List Char)
    (h : ∀ c ∈ s, jsIsWhitespace c = true) : jsTrim s = [] := by
  have h1 : s.dropWhile jsIsWhitespace = [] := List.dropWhile_eq_nil_iff.mpr h
  simp [jsTrim, h1]

/-- The word count computed by the code equals the number of maximal
non-whitespace runs of the trimmed content. -/
theorem wordCount_eq_countRuns (s : List Char) :
    wordCount s = countRuns (jsTrim s) := by
  rw [wordCount]
  by_cases h : jsTrim s = []
  · rw [if_pos h, h, countRuns_nil]
  · rw [if_neg h, splitWS]
    exact splitWSAux_length_eq_countRuns ((jsTrim s).length + 1) (jsTrim s)
      (by omega) (jsTrim_head_not_ws s) (jsTrim_last_not_ws s) h

/-- C6. Word and character statistics of handleContentChange: 0 words for
the empty and for every all-whitespace content; exactly 3 words and 16
characters for "Hello world test"; the character count is the untrimmed
length, and the word count is the number of maximal non-whitespace runs
of the trimmed content. -/
theorem word_char_count_spec :
    wordCount [] = 0 ∧
    (∀ s : List Char, (∀ c ∈ s, jsIsWhitespace c = true) → wordCount s = 0) ∧
    wordCount "Hello world test".data = 3 ∧
    charCount "Hello world test".data = 16 ∧
    (∀ s : List Char, charCount s = s.length) ∧
    (∀ s : List Char, wordCount s = countRuns (jsTrim s)) := by
  refine ⟨by decide, ?_, by decide, by decide, fun s => rfl,
    wordCount_eq_countRuns⟩
  intro s h
  rw [wordCount, if_pos (jsTrim_eq_nil_of_all_ws s h)]

/-- C6 witness: a concrete all-whitespace string of blanks and a tab. -/
theorem word_char_count_spec_witness :
    (∀ c ∈ "  \t ".data, jsIsWhitespace c = true) ∧
    wordCount "  \t ".data = 0 :=
  ⟨by decide, word_char_count_spec.2.1 "  \t ".data (by decide)⟩

end AiWriter
